import Mathlib

/-!
Verification of the steam-vanity-url-checker core against its code.

Strings of the Python source are modelled as `List Char`.  The modules
`src/base.py` and `src/steam.py` are embedded below:

* `to_base` / `from_base` embed the bijective-numeral codec of `base.py`.
  The Python `while num:` loop of `to_base` is embedded with explicit fuel
  (`to_base_loop`); `none` models a Python exception or a loop that the
  given fuel cannot finish.  Fuel `num` is enough for every alphabet of
  two or more symbols, because `num` strictly decreases each iteration.
* `bz_gen_urls`, `check_urls`, `save_urls` embed the functions of
  `steam.py` as explicit state transformers over the module-level lists
  `gen_list` / `check_list`.  The Python `re` module is external; it is
  modelled by an abstract `RegexEngine` whose `compile` returns `none`
  exactly when `re.compile` raises, and otherwise the truthiness of
  `compiled.search`.
-/

namespace SteamVanity

/-- Embeds `base.py::from_base`'s loop `r = r * base_len + base.index(i) + 1`.
`none` models the `ValueError` that `str.index` raises when a character is
not in the alphabet. -/
def from_base_loop (base : List Char) : Nat → List Char → Option Nat
  | acc, [] => some acc
  | acc, c :: cs =>
    if c ∈ base then from_base_loop base (acc * base.length + base.indexOf c + 1) cs
    else none

/-- Embeds `base.py::from_base`. -/
def from_base (num base : List Char) : Option Nat :=
  from_base_loop base 0 num

/-- Embeds the body of `base.py::to_base`'s `while num:` loop:
`mod = (num - 1) % base_len; r = base[mod] + r; num = (num - mod) // base_len`.
Out-of-fuel with `num ≠ 0` yields `none` (the Python loop has not finished). -/
def to_base_loop (base : List Char) : Nat → Nat → List Char → Option (List Char)
  | 0, num, r => if num = 0 then some r else none
  | fuel + 1, num, r =>
    if num = 0 then some r
    else
      to_base_loop base fuel ((num - (num - 1) % base.length) / base.length)
        (base.getD ((num - 1) % base.length) ' ' :: r)

/-- Embeds `base.py::to_base`.  `none` models the `ValueError` raised when
`num < 1`, the `ZeroDivisionError` raised on an empty alphabet, and a loop
that fuel `num` cannot finish (for a one-symbol alphabet the Python loop
never terminates, see `to_base_loop_singleton_stuck`). -/
def to_base (num : Int) (base : List Char) : Option (List Char) :=
  if num < 1 then none
  else if base.length = 0 then none
  else to_base_loop base num.toNat num.toNat []

/-- Embeds `steam.py::_base = ascii_lowercase + digits + '-_'`. -/
def steam_alphabet : List Char :=
  "abcdefghijklmnopqrstuvwxyz0123456789-_".toList

/-- Embeds `config.py::Pattern.ANY = '.*'`. -/
def patternANY : List Char := ".*".toList

/-- Abstract model of the external `re` module: `compile` is `none` when
`re.compile` raises `sre_constants.error`, otherwise the truthiness of
`compiled.search` on a candidate. -/
structure RegexEngine where
  compile : List Char → Option (List Char → Bool)

/-- A `RegexEngine` on which every pattern compiles and matches every string;
this is how Python's `re` behaves on the match-anything pattern `'.*'`. -/
def anyEngine : RegexEngine := ⟨fun _ => some (fun _ => true)⟩

/-- Embeds `steam.py::bz_gen_urls` as a transformer of the module-level
`gen_list` (passed in as `st`, returned updated).  The first component
models raising (`Except.error ()` is the `ValueError` on bad bounds, or an
exception from the `left`/`right` computation, unreachable on a non-empty
alphabet).  The `history` flag only drives console printing and is omitted.
Following the source order: validate bounds, default the pattern, clear
`gen_list`, compute `left`/`right`, compile the pattern (a compile failure
returns with `gen_list` left cleared), then keep each `to_base i` matched by
the pattern for `i` in `range(left, right)`. -/
def bz_gen_urls (re : RegexEngine) (base : List Char) (st : List (List Char))
    (min_len max_len : Int) (pattern : Option (List Char)) :
    Except Unit Unit × List (List Char) :=
  if min_len < 1 ∨ max_len < min_len then (Except.error (), st)
  else
    let pat := match pattern with
      | none => patternANY
      | some p => if p = [] then patternANY else p
    match from_base (List.replicate min_len.toNat (base.headD ' ')) base,
          from_base (List.replicate max_len.toNat (base.getLastD ' ')) base with
    | some left, some right =>
      match re.compile pat with
      | none => (Except.ok (), [])
      | some search =>
        (Except.ok (),
          (List.range' left (right - left)).filterMap
            (fun i => (to_base (Int.ofNat i) base).bind
              (fun url => if search url then some url else none)))
    | _, _ => (Except.error (), [])

/-- Does the second list start with the first?  Helper for the model of
Python's substring operator `in`. -/
def hasPre : List Char → List Char → Bool
  | [], _ => true
  | _ :: _, [] => false
  | c :: cs, d :: ds => c == d && hasPre cs ds

/-- Model of Python's substring operator `sub in hay`. -/
def hasSub (sub : List Char) : List Char → Bool
  | [] => hasPre sub []
  | d :: ds => hasPre sub (d :: ds) || hasSub sub ds

/-- The valid-profile marker tested in `steam.py::check_url`. -/
def returnLinkMarker : List Char := "<p class=\"returnLink\">".toList

/-- The removed-group marker tested in `steam.py::check_url`. -/
def removedMarker : List Char := "This group has been removed".toList

/-- Embeds the availability condition of `steam.py::check_url`:
`content and '<p class="returnLink">' in content and
'This group has been removed' not in content`. -/
def is_available (content : List Char) : Bool :=
  !content.isEmpty && hasSub returnLinkMarker content && !hasSub removedMarker content

/-- The module-level mutable lists of `steam.py`: `gen_list` and
`check_list`. -/
structure SteamState where
  gen_list : List (List Char)
  check_list : List (List Char)
deriving DecidableEq

/-- Embeds the inner coroutine `steam.py::check_urls.check_url` for one
candidate.  The network is modelled by `fetch endpoint url`, the body text
of the `GET` on `'https://steamcommunity.com/%s/%s' % (endpoint, url)`;
`none` models a `ClientError`/`ValueError` (swallowed, candidate dropped). -/
def check_url (fetch : List Char → List Char → Option (List Char))
    (endpoint url : List Char) : Bool :=
  match fetch endpoint url with
  | none => false
  | some content => is_available content

/-- Embeds `steam.py::check_urls` as a state transformer.  The early return
on an empty `gen_list` happens *before* `check_list.clear()`.  The
`asyncio.gather` tasks append to `check_list` in completion order, which is
unordered; the embedding fixes the one linearization that follows
`gen_list` order (the claims below do not depend on the order).  The
`history` flag only drives console printing and is omitted. -/
def check_urls (fetch : List Char → List Char → Option (List Char))
    (endpoint : List Char) (st : SteamState) : SteamState :=
  if st.gen_list = [] then st
  else ⟨st.gen_list, st.gen_list.filter (fun url => check_url fetch endpoint url)⟩

/-- Model of Python's `<=` on strings: lexicographic by code point. -/
def pyStrLe : List Char → List Char → Bool
  | [], _ => true
  | _ :: _, [] => false
  | a :: as, b :: bs =>
    if a < b then true
    else if a = b then pyStrLe as bs
    else false

/-- The ordering relation `sorted` uses, as a `Prop`. -/
def pyLe (a b : List Char) : Prop := pyStrLe a b = true

instance : DecidableRel pyLe := fun a b => by unfold pyLe; infer_instance

/-- Embeds `steam.py::save_urls` up to the file write: the sequence
`sorted(check_list)` that is joined with newlines and persisted.  Python's
`sorted` is a stable comparison sort; a stable insertion sort with the same
ordering produces the same list. -/
def save_urls (check_list : List (List Char)) : List (List Char) :=
  List.insertionSort pyLe check_list

/-- The string `to_base` computes for a given number, defined by recursion
on the number (used to characterize `to_base_loop` when the alphabet has at
least two symbols). -/
def toDigits (base : List Char) : Nat → List Char
  | 0 => []
  | n + 1 => toDigits base (n / base.length) ++ [base.getD (n % base.length) ' ']
decreasing_by exact Nat.lt_succ_of_le (Nat.div_le_self n base.length)

end SteamVanity

namespace SteamVanity

example : from_base "a".toList "ab".toList = some 1 := by decide
example : from_base "bb".toList "ab".toList = some 6 := by decide
example : to_base 6 "ab".toList = some "bb".toList := by decide
example : to_base 1 "a".toList = none := by decide
example : save_urls [['b'], ['a'], ['a']] = [['a'], ['a'], ['b']] := by decide
example : check_urls (fun _ _ => none) [] ⟨[], [['x']]⟩ = ⟨[], [['x']]⟩ := by decide
example : is_available returnLinkMarker = true := by decide
example : is_available (returnLinkMarker ++ removedMarker) = false := by decide
example : is_available [] = false := by decide

/-- Spec-side notion of containment: the first list occurs contiguously
inside the second. -/
def ContainsSub (sub s : List Char) : Prop := ∃ l r, s = l ++ sub ++ r

/-- Availability predicate as the spec words it: the body is non-empty,
contains the return-link marker and does not contain the removal marker. -/
def spec_available (content : List Char) : Prop :=
  content ≠ [] ∧ ContainsSub returnLinkMarker content ∧
    ¬ ContainsSub removedMarker content

lemma hasPre_iff (sub hay : List Char) :
    hasPre sub hay = true ↔ ∃ r, hay = sub ++ r := by
  induction sub generalizing hay with
  | nil => simp [hasPre]
  | cons c cs ih =>
    cases hay with
    | nil => simp [hasPre]
    | cons d ds =>
      simp only [hasPre, Bool.and_eq_true, beq_iff_eq, ih, List.cons_append,
        List.cons.injEq]
      constructor
      · rintro ⟨rfl, r, rfl⟩; exact ⟨r, rfl, rfl⟩
      · rintro ⟨r, rfl, rfl⟩; exact ⟨rfl, r, rfl⟩

lemma hasSub_iff (sub hay : List Char) :
    hasSub sub hay = true ↔ ContainsSub sub hay := by
  induction hay with
  | nil =>
    simp only [hasSub, hasPre_iff, ContainsSub]
    constructor
    · rintro ⟨r, hr⟩; exact ⟨[], r, by simpa using hr⟩
    · rintro ⟨l, r, h⟩
      rcases List.append_eq_nil.mp h.symm with ⟨h1, h2⟩
      rcases List.append_eq_nil.mp h1 with ⟨rfl, rfl⟩
      exact ⟨[], by simp⟩
  | cons d ds ih =>
    simp only [hasSub, Bool.or_eq_true, hasPre_iff, ih, ContainsSub]
    constructor
    · rintro (⟨r, hr⟩ | ⟨l, r, hl⟩)
      · exact ⟨[], r, by simpa using hr⟩
      · exact ⟨d :: l, r, by simp [hl]⟩
    · rintro ⟨l, r, h⟩
      cases l with
      | nil => left; exact ⟨r, by simpa using h⟩
      | cons x xs =>
        right
        rcases List.cons.injEq .. ▸ h with ⟨rfl, h2⟩
        exact ⟨xs, r, by simpa using h2⟩

/-- C4: a candidate is marked available iff the response body is non-empty,
contains the literal substring `<p class="returnLink">` and does not contain
the literal substring `This group has been removed` (case-sensitive). -/
theorem c4_availability_predicate (content : List Char) :
    is_available content = true ↔ spec_available content := by
  have hne : (!content.isEmpty) = true ↔ content ≠ [] := by
    cases content <;> simp
  simp only [is_available, spec_available, Bool.and_eq_true, hne,
    Bool.not_eq_true', hasSub_iff]
  constructor
  · rintro ⟨⟨h1, h2⟩, h3⟩
    exact ⟨h1, h2, fun hc => by rw [(hasSub_iff _ _).mpr hc] at h3; cases h3⟩
  · rintro ⟨h1, h2, h3⟩
    refine ⟨⟨h1, h2⟩, ?_⟩
    cases hv : hasSub removedMarker content with
    | false => rfl
    | true => exact absurd ((hasSub_iff _ _).mp hv) h3

/-- C6: worked example of the encoder over alphabet "ab": the images of
1..7 are a, b, aa, ab, ba, bb, aaa. -/
theorem c6_worked_example :
    to_base 1 "ab".toList = some "a".toList ∧
    to_base 2 "ab".toList = some "b".toList ∧
    to_base 3 "ab".toList = some "aa".toList ∧
    to_base 4 "ab".toList = some "ab".toList ∧
    to_base 5 "ab".toList = some "ba".toList ∧
    to_base 6 "ab".toList = some "bb".toList ∧
    to_base 7 "ab".toList = some "aaa".toList := by decide

lemma from_base_loop_missing (base : List Char) :
    ∀ s : List Char, (∃ c, c ∈ s ∧ c ∉ base) →
      ∀ acc, from_base_loop base acc s = none := by
  intro s
  induction s with
  | nil => rintro ⟨c, hc, -⟩; cases hc
  | cons c cs ih =>
    rintro ⟨d, hd, hdb⟩ acc
    by_cases hc : c ∈ base
    · rw [from_base_loop, if_pos hc]
      apply ih _ _
      rcases List.mem_cons.mp hd with rfl | hmem
      · exact absurd hc hdb
      · exact ⟨d, hmem, hdb⟩
    · rw [from_base_loop, if_neg hc]

/-- C9: decoding a string containing a character outside the alphabet
raises (the per-character `str.index` lookup fails with `ValueError`). -/
theorem c9_from_base_raises (s base : List Char)
    (h : ∃ c, c ∈ s ∧ c ∉ base) : from_base s base = none :=
  from_base_loop_missing base s h 0

/-- Witness for C9 at a concrete input. -/
theorem c9_from_base_raises_witness : from_base ['!'] ['a', 'b'] = none :=
  c9_from_base_raises ['!'] ['a', 'b'] ⟨'!', by decide, by decide⟩

/-- C10: the checking run never modifies the candidate sequence; only the
result list is written. -/
theorem c10_check_frame (fetch : List Char → List Char → Option (List Char))
    (endpoint : List Char) (st : SteamState) :
    (check_urls fetch endpoint st).gen_list = st.gen_list := by
  rw [check_urls]
  split <;> rfl

/-- C8 counterexample: with an empty candidate sequence but a non-empty
result list left over from a previous run, the checking run exposes that
stale, non-empty result list (the early return skips `check_list.clear()`),
so the exposed result set is not empty. -/
theorem c8_empty_counterexample :
    (check_urls (fun _ _ => none) [] ⟨[], [['x']]⟩).check_list ≠ [] := by decide

/-- C8 (amended): with an empty candidate sequence the checking run returns
immediately and leaves the whole state unchanged; the result list keeps
whatever contents it had before the call (empty only if it was already
empty). -/
theorem c8_empty_noop (fetch : List Char → List Char → Option (List Char))
    (endpoint : List Char) (st : SteamState) (h : st.gen_list = []) :
    check_urls fetch endpoint st = st := by
  rw [check_urls, if_pos h]

/-- Witness for C8 at a concrete input. -/
theorem c8_empty_noop_witness :
    check_urls (fun _ _ => none) [] ⟨[], [['x']]⟩ = ⟨[], [['x']]⟩ :=
  c8_empty_noop (fun _ _ => none) [] ⟨[], [['x']]⟩ rfl

lemma pyStrLe_cons (x y : Char) (xs ys : List Char) :
    pyStrLe (x :: xs) (y :: ys) = true ↔
      (x < y ∨ (x = y ∧ pyStrLe xs ys = true)) := by
  simp only [pyStrLe]
  split_ifs with h1 h2
  · simp [h1]
  · simp [h1, h2]
  · simp [h1, h2]

lemma pyStrLe_total : ∀ a b : List Char, pyStrLe a b = true ∨ pyStrLe b a = true := by
  intro a
  induction a with
  | nil => intro b; left; rfl
  | cons x xs ih =>
    intro b
    cases b with
    | nil => right; rfl
    | cons y ys =>
      rcases lt_trichotomy x y with h | rfl | h
      · left; exact (pyStrLe_cons ..).mpr (Or.inl h)
      · rcases ih ys with h2 | h2
        · left; exact (pyStrLe_cons ..).mpr (Or.inr ⟨rfl, h2⟩)
        · right; exact (pyStrLe_cons ..).mpr (Or.inr ⟨rfl, h2⟩)
      · right; exact (pyStrLe_cons ..).mpr (Or.inl h)

lemma pyStrLe_trans : ∀ a b c : List Char,
    pyStrLe a b = true → pyStrLe b c = true → pyStrLe a c = true := by
  intro a
  induction a with
  | nil => intro b c _ _; rfl
  | cons x xs ih =>
    intro b c hab hbc
    cases b with
    | nil => cases hab
    | cons y ys =>
      cases c with
      | nil => cases hbc
      | cons z zs =>
        rcases (pyStrLe_cons ..).mp hab with h1 | ⟨rfl, h1⟩ <;>
          rcases (pyStrLe_cons ..).mp hbc with h2 | ⟨rfl, h2⟩
        · exact (pyStrLe_cons ..).mpr (Or.inl (lt_trans h1 h2))
        · exact (pyStrLe_cons ..).mpr (Or.inl h1)
        · exact (pyStrLe_cons ..).mpr (Or.inl h2)
        · exact (pyStrLe_cons ..).mpr (Or.inr ⟨rfl, ih ys zs h1 h2⟩)

instance : IsTotal (List Char) pyLe := ⟨pyStrLe_total⟩

instance : IsTrans (List Char) pyLe := ⟨pyStrLe_trans⟩

/-- C3 counterexample: the sink does not de-duplicate: with a duplicated
confirmed candidate the persisted sequence still holds both copies
(`sorted` sorts, it does not remove duplicates). -/
theorem c3_sink_counterexample :
    save_urls [['a'], ['a']] = [['a'], ['a']] ∧
      ¬ (save_urls [['a'], ['a']]).Nodup := by
  constructor
  · rfl
  · decide

/-- C3 (amended): the sink's output is sorted lexicographically by natural
character ordering and finalizing twice yields identical output; duplicate
entries of the input are preserved (the output is a permutation of the
input), not removed. -/
theorem c3_sink_sorted_idempotent (l : List (List Char)) :
    List.Sorted pyLe (save_urls l) ∧ save_urls (save_urls l) = save_urls l ∧
      List.Perm (save_urls l) l := by
  refine ⟨List.sorted_insertionSort pyLe l, ?_, List.perm_insertionSort pyLe l⟩
  exact List.Sorted.insertionSort_eq (List.sorted_insertionSort pyLe l)

lemma from_base_loop_replicate (base : List Char) (c : Char) (hc : c ∈ base) :
    ∀ n acc, ∃ k, from_base_loop base acc (List.replicate n c) = some k := by
  intro n
  induction n with
  | zero => intro acc; exact ⟨acc, rfl⟩
  | succ n ih =>
    intro acc
    rw [List.replicate_succ, from_base_loop, if_pos hc]
    exact ih _

lemma bz_gen_urls_no_error (re : RegexEngine) (base : List Char)
    (st : List (List Char)) (min_len max_len : Int) (pattern : Option (List Char))
    (h : ¬(min_len < 1 ∨ max_len < min_len))
    (hhead : base.headD ' ' ∈ base) (hlast : base.getLastD ' ' ∈ base) :
    (bz_gen_urls re base st min_len max_len pattern).1 = Except.ok () := by
  obtain ⟨l, hl⟩ := from_base_loop_replicate base _ hhead min_len.toNat 0
  obtain ⟨r, hr⟩ := from_base_loop_replicate base _ hlast max_len.toNat 0
  rw [bz_gen_urls.eq_def, if_neg h]
  simp only [from_base, hl, hr]
  cases re.compile _ <;> rfl

/-- C7: range-mode generation raises the invalid-argument error exactly when
`min_len < 1` or `max_len < min_len`; in that case it raises before any
candidate is produced and leaves the previously held candidate list
unchanged. -/
theorem c7_invalid_bounds (re : RegexEngine) (st : List (List Char))
    (min_len max_len : Int) (pattern : Option (List Char)) :
    ((bz_gen_urls re steam_alphabet st min_len max_len pattern).1 =
        Except.error () ↔ (min_len < 1 ∨ max_len < min_len)) ∧
      (min_len < 1 ∨ max_len < min_len →
        bz_gen_urls re steam_alphabet st min_len max_len pattern =
          (Except.error (), st)) := by
  by_cases h : min_len < 1 ∨ max_len < min_len
  · have hb : bz_gen_urls re steam_alphabet st min_len max_len pattern =
        (Except.error (), st) := by
      rw [bz_gen_urls.eq_def, if_pos h]
    exact ⟨⟨fun _ => h, fun _ => by rw [hb]⟩, fun _ => hb⟩
  · have hok := bz_gen_urls_no_error re steam_alphabet st min_len max_len pattern h
      (by decide) (by decide)
    refine ⟨⟨fun he => absurd (hok ▸ he) (by simp), fun hb => absurd hb h⟩,
      fun hb => absurd hb h⟩

/-- Witness for C7 at a concrete input. -/
theorem c7_invalid_bounds_witness :
    bz_gen_urls anyEngine steam_alphabet [['q']] 0 5 none =
      (Except.error (), [['q']]) :=
  (c7_invalid_bounds anyEngine [['q']] 0 5 none).2 (Or.inl (by decide))

/-- C5: with well-formed bounds, a pattern that fails to compile makes
range-mode generation yield an empty candidate sequence without raising:
`gen_list` has already been cleared and the compile failure returns early. -/
theorem c5_pattern_failure_swallowed (re : RegexEngine) (st : List (List Char))
    (min_len max_len : Int) (p : List Char)
    (h1 : 1 ≤ min_len) (h2 : min_len ≤ max_len) (hp : p ≠ [])
    (hc : re.compile p = none) :
    bz_gen_urls re steam_alphabet st min_len max_len (some p) =
      (Except.ok (), []) := by
  obtain ⟨l, hl⟩ := from_base_loop_replicate steam_alphabet _
    (show steam_alphabet.headD ' ' ∈ steam_alphabet by decide) min_len.toNat 0
  obtain ⟨r, hr⟩ := from_base_loop_replicate steam_alphabet _
    (show steam_alphabet.getLastD ' ' ∈ steam_alphabet by decide) max_len.toNat 0
  rw [bz_gen_urls.eq_def, if_neg (by omega)]
  simp only [from_base, if_neg hp, hl, hr, hc]

/-- Witness for C5 at a concrete input: a regex engine on which the pattern
fails to compile. -/
theorem c5_pattern_failure_witness :
    bz_gen_urls ⟨fun _ => none⟩ steam_alphabet [['q']] 1 2 (some ['[']) =
      (Except.ok (), []) :=
  c5_pattern_failure_swallowed ⟨fun _ => none⟩ [['q']] 1 2 ['[']
    (by decide) (by decide) (by decide) rfl

lemma to_base_num_step (b m : Nat) (hb : 2 ≤ b) :
    (m + 1 - m % b) / b = m / b := by
  have h2 : m + 1 - m % b = b * (m / b) + 1 := by
    have h3 := Nat.div_add_mod m b
    have h4 : m % b ≤ m := Nat.mod_le m b
    omega
  rw [h2, Nat.mul_add_div (by omega)]
  simp [Nat.div_eq_of_lt (show 1 < b by omega)]

lemma to_base_loop_eq (base : List Char) (hb : 2 ≤ base.length) :
    ∀ fuel num r, num ≤ fuel →
      to_base_loop base fuel num r = some (toDigits base num ++ r) := by
  intro fuel
  induction fuel with
  | zero =>
    intro num r h
    obtain rfl : num = 0 := Nat.le_zero.mp h
    simp [to_base_loop, toDigits]
  | succ fuel ih =>
    intro num r h
    cases num with
    | zero => simp [to_base_loop, toDigits]
    | succ m =>
      rw [to_base_loop, if_neg (Nat.succ_ne_zero m)]
      simp only [Nat.add_sub_cancel]
      rw [to_base_num_step base.length m hb,
        ih _ _ (le_trans (Nat.div_le_self m _) (by omega))]
      conv_rhs => rw [toDigits]
      simp [List.append_assoc]

lemma from_base_loop_append (base : List Char) (xs ys : List Char) :
    ∀ acc, from_base_loop base acc (xs ++ ys) =
      (from_base_loop base acc xs).bind (fun a => from_base_loop base a ys) := by
  induction xs with
  | nil => intro acc; rfl
  | cons c cs ih =>
    intro acc
    by_cases hc : c ∈ base
    · rw [List.cons_append, from_base_loop, if_pos hc, from_base_loop, if_pos hc]
      exact ih _
    · rw [List.cons_append, from_base_loop, if_neg hc, from_base_loop, if_neg hc]
      rfl

lemma from_base_loop_single (base : List Char) (hnd : base.Nodup)
    (i : Nat) (hi : i < base.length) (acc : Nat) :
    from_base_loop base acc [base.getD i ' '] =
      some (acc * base.length + i + 1) := by
  have hgd : base.getD i ' ' = base[i] := by
    simp [List.getD_eq_getElem?_getD, List.getElem?_eq_getElem hi]
  have hmem : base.getD i ' ' ∈ base := by rw [hgd]; exact List.getElem_mem hi
  have hidx : base.indexOf (base.getD i ' ') = i := by
    rw [hgd]; exact List.indexOf_getElem hnd i hi
  rw [from_base_loop, if_pos hmem, hidx, from_base_loop]

lemma from_base_loop_toDigits (base : List Char) (hnd : base.Nodup)
    (hb : 2 ≤ base.length) :
    ∀ num acc, from_base_loop base acc (toDigits base num) =
      some (acc * base.length ^ (toDigits base num).length + num) := by
  intro num
  induction num using Nat.strong_induction_on with
  | _ num ih =>
    cases num with
    | zero => intro acc; simp [toDigits, from_base_loop]
    | succ m =>
      intro acc
      have hlt : m / base.length < m + 1 := Nat.lt_succ_of_le (Nat.div_le_self _ _)
      rw [toDigits, from_base_loop_append, ih (m / base.length) hlt acc,
        Option.some_bind,
        from_base_loop_single base hnd (m % base.length)
          (Nat.mod_lt _ (by omega)) _]
      congr 1
      simp only [List.length_append, List.length_cons, List.length_nil, pow_succ]
      have hdm := Nat.div_add_mod m base.length
      linarith [hdm]

lemma to_base_eq_toDigits (base : List Char) (hb : 2 ≤ base.length)
    (n : Nat) (hn : 1 ≤ n) :
    to_base (n : Int) base = some (toDigits base n) := by
  rw [to_base, if_neg (by omega), if_neg (by omega), Int.toNat_natCast,
    to_base_loop_eq base hb n n [] le_rfl, List.append_nil]

/-- The Python `to_base` loop never terminates on a one-symbol alphabet:
with `base_len = 1` the update `num = (num - mod) // base_len` leaves
`num = 1` forever, so no amount of fuel finishes it. -/
lemma to_base_loop_singleton_stuck :
    ∀ fuel r, to_base_loop ['a'] fuel 1 r = none := by
  intro fuel
  induction fuel with
  | zero => intro r; rfl
  | succ fuel ih =>
    intro r
    rw [to_base_loop, if_neg one_ne_zero]
    simpa using ih _

/-- C2 counterexample: on the one-symbol alphabet "a" (non-empty, distinct
symbols) the encoder never returns for n = 1, so the claimed round trip
fails there. -/
theorem c2_roundtrip_counterexample :
    ¬ ∃ s, to_base 1 ['a'] = some s ∧ from_base s ['a'] = some 1 := by
  rintro ⟨s, hs, -⟩
  rw [show to_base 1 ['a'] = none from rfl] at hs
  exact Option.noConfusion hs

/-- C2 (amended): for every alphabet of at least two distinct symbols and
every integer n ≥ 1, the encoder terminates and decoding its output gives
back n: `from_base (to_base n base) base = n`. -/
theorem c2_roundtrip (base : List Char) (hnd : base.Nodup)
    (hb : 2 ≤ base.length) (n : Nat) (hn : 1 ≤ n) :
    ∃ s, to_base (n : Int) base = some s ∧ from_base s base = some n := by
  refine ⟨toDigits base n, to_base_eq_toDigits base hb n hn, ?_⟩
  rw [from_base, from_base_loop_toDigits base hnd hb n 0]
  simp

/-- Witness for C2 at a concrete input. -/
theorem c2_roundtrip_witness :
    ∃ s, to_base ((5 : Nat) : Int) "ab".toList = some s ∧
      from_base s "ab".toList = some 5 :=
  c2_roundtrip "ab".toList (by decide) (by decide) 5 (by decide)

/-- C1 counterexample: range-mode enumeration over alphabet "ab" with
`min_len = 1`, `max_len = 2` and the match-anything pattern does not produce
the all-last-symbol candidate "bb" of length `max_len`: `range(left, right)`
is right-exclusive and `right = from_base("bb")`. -/
theorem c1_range_counterexample :
    ['b', 'b'] ∉ (bz_gen_urls anyEngine "ab".toList [] 1 2 none).2 := by decide

/-- C1 (amended): range-mode generation over alphabet "ab" with
`min_len = 1`, `max_len = 2` and the match-anything pattern yields exactly
the candidates a, b, aa, ab, ba — every string over the alphabet of length
1 to 2 except the all-last-symbol string "bb" of length `max_len`, which is
excluded because enumeration stops one short of `from_base("bb")`. -/
theorem c1_range_enumeration :
    bz_gen_urls anyEngine "ab".toList [] 1 2 none =
      (Except.ok (), [['a'], ['b'], ['a', 'a'], ['a', 'b'], ['b', 'a']]) := by
  rfl

end SteamVanity
